import Mathlib

/-!
# GoHTTP server core: a shallow embedding and verification

This file embeds the concurrency and lifecycle engine of the GoHTTP server
framework (package `server`, with `util.FDLimiter`) in Lean and proves
properties of the embedding.

Conventions of the embedding:

* Go strings are byte sequences; they are modelled as `List Char`
  (`GoStr`).  `strings.HasPrefix(s, pre)` is `pre.isPrefixOf s`,
  `s[len(pre):]` is `s.drop pre.length`.
* Go `panic` is modelled by `Except GoPanic`; a dereference of a `nil`
  pointer is the runtime panic `GoPanic.nilDeref`, and closing a closed
  channel is `GoPanic.closeOfClosedChan`.
* Nil-able references are `Option` (or `Bool` for the `*Server`
  back-reference, where only nil-ness is observable).
* Side effects on collaborators (spawning a reader goroutine, invoking an
  extension hook or a sub-handler, writing to or closing a connection) are
  recorded in an `Event` trace returned alongside the result.
* Extension implementations and sub-handlers are user code behind
  interfaces; within a single query each hook is invoked at most once, so
  an extension is modelled by the outcome of each of its hooks
  (`none` = success, `some e` = the error returned), and a sub-handler by
  its position in the registration list.
* Machine integers of the fd limiter are modelled as `Int`.
-/

set_option autoImplicit false

namespace GoHTTP

/-- Go string: its sequence of bytes/characters. -/
abbrev GoStr := List Char

/-- Character sequence of a string literal. -/
def gs (s : String) : GoStr := s.data

/-- Abstract Go error values (`os.Error` / `error`); `ebadf` is `os.EBADF`,
returned by `Server.Read` when the dispatch channel is closed. -/
inductive Err where
  | mk (code : Nat)
  | ebadf
deriving DecidableEq

/-- Go panics that the modelled code can raise: the explicit `panic("...")`
calls of the source, plus the two runtime panics the source can trigger
(nil-pointer dereference; `close` of an already-closed channel). -/
inductive GoPanic where
  | continueHijack
  | continueAndHijack
  | queryZombie
  | fdLimiter
  | fdLimiterBadLimit
  | registerTwice
  | timeoutTooSmall
  | closeOfClosedChan
  | nilDeref
deriving DecidableEq

/-- Observable effects on the server's collaborators. -/
inductive Event where
  | readRequest (name : GoStr)
  | writeResponse (name : GoStr)
  | serve (subIdx : Nat) (path : GoStr)
  | spawnRead (conn : Option Nat)
  | unregister (conn : Nat)
  | closeConn (conn : Nat)
  | closeListener
  | connWrite (conn : Nat) (resp : Nat)
deriving DecidableEq

/-- The parsed `http.Request`, restricted to the only field the server core
reads: `URL.Path`. -/
structure Request where
  path : GoStr
deriving DecidableEq

/-- An `http.Response`; its contents are opaque to the server core, which
only hands it to extension hooks and writes it on the connection. -/
structure Response where
  id : Nat
deriving DecidableEq

/-- Behaviour of one `Extension` implementation (part_009): user code with
hooks `ReadRequest(req, ext) error` and `WriteResponse(resp, ext) error`.
Within one query each hook runs at most once, so a fixed per-call outcome
(`none` = success) is fully general for the properties proved here. -/
structure Extension where
  readResult : Option Err
  writeResult : Option Err
deriving DecidableEq

/-- Source: `type extcfg struct { Name, SubURL string; Ext Extension }`. -/
structure extcfg where
  Name : GoStr
  SubURL : GoStr
  Ext : Extension
deriving DecidableEq

/-- Source: `subcfg` pairs a URL prefix with the `Sub` implementation
(interface with `Serve(q)`); the implementation is user code, identified
here by its position in the registration list. -/
structure subcfg where
  SubURL : GoStr
deriving DecidableEq

/-- Incoming requests are presented to the user as a `Query`
(server/query.go, current generation).  `srv` models the nil-ness of the
`*Server` back-reference; `ssc` is the id of the owning connection, `none`
when the `*StampedServerConn` back-reference is nil.  `Ext` is the
extension scratch map, `none` while nil; its contents are opaque here. -/
structure Query where
  Req : Option Request
  Ext : Option Unit
  origPath : GoStr
  srv : Bool
  ssc : Option Nat
  err : Option Err
  fwd : Bool
  hijacked : Bool
deriving DecidableEq

/-- Source: `newQueryErr(err)` — a query carrying only an error. -/
def newQueryErr (e : Err) : Query :=
  { Req := none, Ext := none, origPath := [], srv := false, ssc := none,
    err := some e, fwd := false, hijacked := false }

/-- The `Query` literal built by `Server.read` (part_007) on a successful
`ssc.Read()`: request and back-references set, `origPath = req.URL.Path`,
`fwd`/`hijacked`/`Ext` at their zero values. -/
def mkReadQuery (req : Request) (conn : Nat) : Query :=
  { Req := some req, Ext := none, origPath := req.path, srv := true,
    ssc := some conn, err := none, fwd := false, hijacked := false }

/-- One traversal of an extension snapshot, shared by `Server.process`
(`ReadRequest` over `copyExt()`) and `Query.Write` (`WriteResponse` over
`copyExtRev()`): invoke the hook (outcome `f ec`) on every config whose
`SubURL` is a prefix of `p`, in list order, stopping at the first hook that
returns a non-nil error.  Returns the configs whose hook was invoked, in
invocation order, and the first error if any. -/
def chainRun (f : extcfg → Option Err) (p : GoStr) : List extcfg → List extcfg × Option Err
  | [] => ([], none)
  | ec :: rest =>
    if ec.SubURL.isPrefixOf p then
      match f ec with
      | some e => ([ec], some e)
      | none =>
        let r := chainRun f p rest
        (ec :: r.1, r.2)
    else chainRun f p rest

/-- Source: `Server.copyExtRev` — copies `srv.exts` into a fresh slice with
`ee[len(ee)-i-1] = srv.exts[i]`, i.e. the reverse of the registration
list. -/
def copyExtRev (exts : List extcfg) : List extcfg := exts.reverse

/-- Source: `Query.Continue` (query.go).  Panics if `fwd` is already set;
sets `fwd`; panics (`query zombie`) if the server back-reference is nil;
otherwise spawns `go q.srv.read(q.ssc)`. -/
def Query.Continue (q : Query) : List Event × Except GoPanic Query :=
  if q.fwd then ([], .error .continueHijack)
  else
    let q1 : Query := { q with fwd := true }
    if q1.srv = false then ([], .error .queryZombie)
    else ([.spawnRead q1.ssc], .ok q1)

/-- Source: `Query.Hijack` (query.go).  Panics if `fwd` is already set; sets
`fwd` and `hijacked`, nulls both back-references, calls
`srv.unregister(ssc)` on the saved references (a nil saved `srv` faults),
and returns the saved connection (`ssc.ServerConn` faults when it is
nil). -/
def Query.Hijack (q : Query) : List Event × Except GoPanic (Query × Nat) :=
  if q.fwd then ([], .error .continueAndHijack)
  else
    let q1 : Query := { q with fwd := true, hijacked := true, srv := false, ssc := none }
    if q.srv = false then ([], .error .nilDeref)
    else
      match q.ssc with
      | some c => ([.unregister c], .ok (q1, c))
      | none => ([], .error .nilDeref)

/-- Source: `Query.Write` (query.go, current generation).  Clears `q.Req`
and `q.Ext`, runs the `WriteResponse` chain over `q.srv.copyExtRev()`
against `q.origPath` (a nil `srv` faults); on a chain error buries the
connection (`unregister` + `Close`), nulls the back-references and returns
the error; otherwise calls `ssc.Write(req, resp)` (outcome `cw`, a nil
`ssc` faults), burying and returning on error, else succeeding.  The
deferred `resp.Body.Close()` and the statistics updates are not
observable to any property below and are elided. -/
def Query.Write (exts : List extcfg) (cw : Option Err) (q : Query) (resp : Response) :
    List Event × Except GoPanic (Query × Option Err) :=
  let q1 : Query := { q with Req := none, Ext := none }
  if q.srv = false then ([], .error .nilDeref)
  else
    let run := chainRun (fun ec => ec.Ext.writeResult) q.origPath (copyExtRev exts)
    let evs := run.1.map (fun ec => Event.writeResponse ec.Name)
    match run.2 with
    | some e =>
      match q.ssc with
      | some c =>
        (evs ++ [.unregister c, .closeConn c], .ok ({ q1 with ssc := none, srv := false }, some e))
      | none => (evs, .error .nilDeref)
    | none =>
      match q.ssc with
      | none => (evs, .error .nilDeref)
      | some c =>
        match cw with
        | some e =>
          (evs ++ [.connWrite c resp.id, .unregister c, .closeConn c],
            .ok ({ q1 with ssc := none, srv := false }, some e))
        | none => (evs ++ [.connWrite c resp.id], .ok (q1, none))

/-- Source: `Query.ContinueAndWrite(resp)` — `q.Continue()`, then
`return q.Write(resp)`. -/
def Query.ContinueAndWrite (exts : List extcfg) (cw : Option Err) (q : Query) (resp : Response) :
    List Event × Except GoPanic (Query × Option Err) :=
  let r1 := q.Continue
  match r1.2 with
  | .error p => (r1.1, .error p)
  | .ok q1 =>
    let r2 := Query.Write exts cw q1 resp
    (r1.1 ++ r2.1, r2.2)

/-- Modelled from the spec: "`ContinueAndWrite(resp)`: convenience that
performs `Continue` then `Write`" and "returns Write's result" — the
sequential composition of the two public operations, accumulating their
observable effects.  Stated separately from `Query.ContinueAndWrite` so the
refinement claim compares the source definition against the spec's
composition. -/
def continueThenWrite (exts : List extcfg) (cw : Option Err) (q : Query) (resp : Response) :
    List Event × Except GoPanic (Query × Option Err) :=
  match q.Continue with
  | (evs, .error p) => (evs, .error p)
  | (evs, .ok q1) =>
    match Query.Write exts cw q1 resp with
    | (evs2, r) => (evs ++ evs2, r)

/-- The sub-handler loop of `Server.process`: scan the snapshot in
registration order; at the first `sc` with `strings.HasPrefix(p, sc.SubURL)`
rewrite the path to `p[len(sc.SubURL):]` and serve.  Returns the position of
the serving sub-handler and the rewritten path, or `none`. -/
def subFind (p : GoStr) : List subcfg → Option (Nat × GoStr)
  | [] => none
  | sc :: rest =>
    if sc.SubURL.isPrefixOf p then some (0, p.drop sc.SubURL.length)
    else (subFind p rest).map (fun r => (r.1 + 1, r.2))

/-- Source: `Server.process` (part_007, current generation).  Allocates the
scratch map (`q.Ext = make(...)`), runs the `ReadRequest` chain over the
extension snapshot against `q.origPath` — any hook error drops the query
(`return nil`); then matches sub-handlers against `q.Req.URL.Path` (a nil
`Req` faults), rewriting the path and consuming the query on a match;
otherwise returns the query. -/
def process (exts : List extcfg) (subs : List subcfg) (q : Query) :
    List Event × Except GoPanic (Option Query) :=
  let q1 : Query := { q with Ext := some () }
  let run := chainRun (fun ec => ec.Ext.readResult) q.origPath exts
  let evs := run.1.map (fun ec => Event.readRequest ec.Name)
  match run.2 with
  | some _ => (evs, .ok none)
  | none =>
    match q1.Req with
    | none => (evs, .error .nilDeref)
    | some req =>
      match subFind req.path subs with
      | some (i, p2) => (evs ++ [.serve i p2], .ok none)
      | none => (evs, .ok (some q1))

/-- The outcome of `Server.Read`. -/
inductive ReadResult where
  | query (q : Query)
  | err (e : Err)
  | ebadf
deriving DecidableEq

/-- Source: `Server.Read` (part_007).  The dispatch channel is modelled by
the list of queries that will arrive on it, the channel being closed after
them: receive (closed channel yields `os.EBADF`); return an error query's
error; otherwise run `process`, returning its query when it yields one and
looping when the query was consumed. -/
def serverRead (exts : List extcfg) (subs : List subcfg) :
    List Query → List Event × Except GoPanic ReadResult
  | [] => ([], .ok .ebadf)
  | q :: rest =>
    match q.err with
    | some e => ([], .ok (.err e))
    | none =>
      match process exts subs q with
      | (evs, .error p) => (evs, .error p)
      | (evs, .ok (some q1)) => (evs, .ok (.query q1))
      | (evs, .ok none) =>
        let r := serverRead exts subs rest
        (evs ++ r.1, r.2)

/-- Source: `Server.read(ssc)` (part_007) — one invocation of the
per-connection reader goroutine, given the outcome of `ssc.Read()`.  Both
error branches bury the connection and return; the success branch sends
exactly one `Query` on the dispatch channel and returns (the `for` loop
always returns within its first iteration).  Result: events, and the
queries enqueued. -/
def serverReadStep (conn : Nat) (outcome : Except Err Request) : List Event × List Query :=
  match outcome with
  | .error _ => ([.unregister conn, .closeConn conn], [])
  | .ok req => ([], [mkReadQuery req conn])

/-- State of `util.FDLimiter` (util/roc.go, current generation): the fd
count against the hard limit.  Go `int` is modelled as `Int`. -/
structure FDLimiter where
  limit : Int
  count : Int
deriving DecidableEq

/-- Source: `FDLimiter.Init(fdlim)` — panics (`FDLimiter, bad limit`) when
`fdlim <= 0`, else sets `limit = fdlim` and `count = 0`. -/
def FDLimiter.Init (fdlim : Int) : Except GoPanic FDLimiter :=
  if fdlim ≤ 0 then .error .fdLimiterBadLimit
  else .ok { limit := fdlim, count := 0 }

/-- Source: `FDLimiter.Lock` — under the mutex, when `count < limit`
increment and return; otherwise drop the mutex and park on the wakeup
channel before retrying.  One observable step: `some` is the successful
acquisition, `none` means the caller is still blocked (state unchanged). -/
def FDLimiter.Lock (fdl : FDLimiter) : Option FDLimiter :=
  if fdl.count < fdl.limit then some { fdl with count := fdl.count + 1 } else none

/-- Source: `FDLimiter.Unlock` — panics (`FDLimiter`) when `count <= 0`,
else decrements (and wakes one waiter when leaving saturation; the wakeup
send carries no state change). -/
def FDLimiter.Unlock (fdl : FDLimiter) : Except GoPanic FDLimiter :=
  if fdl.count ≤ 0 then .error .fdLimiter
  else .ok { fdl with count := fdl.count - 1 }

/-- A call against the fd limiter. -/
inductive FDOp where
  | lock
  | unlock
deriving DecidableEq

/-- Apply a sequence of `Lock`/`Unlock` calls: a blocked `Lock` leaves the
counter unchanged (the caller merely parks), a panicking `Unlock` aborts the
run. -/
def runFDOps : List FDOp → FDLimiter → Except GoPanic FDLimiter
  | [], fdl => .ok fdl
  | .lock :: rest, fdl =>
    match fdl.Lock with
    | some fdl1 => runFDOps rest fdl1
    | none => runFDOps rest fdl
  | .unlock :: rest, fdl =>
    match fdl.Unlock with
    | .error p => .error p
    | .ok fdl1 => runFDOps rest fdl1

/-- The fd limiter's specified invariant. -/
abbrev FDInv (fdl : FDLimiter) : Prop := 0 ≤ fdl.count ∧ fdl.count ≤ fdl.limit

/-- Shutdown-relevant server state: nil-ness of the listener reference,
whether the dispatch channel `qch` has been closed, and the live connection
set (its ids). -/
structure SrvState where
  listen : Bool
  qchClosed : Bool
  conns : List Nat
deriving DecidableEq

/-- Source: `Server.Shutdown` (part_007) — swap the listener to nil and
`close(srv.qch)` under the lock (closing a closed Go channel is a runtime
panic), `Close` the saved listener when it was non-nil (`lres` models the
result of `l.Close()`), then force-`Close` every live connection and clear
the set.  Returns the events and, absent a panic, the new state and the
returned error. -/
def shutdown (lres : Option Err) (s : SrvState) :
    List Event × Except GoPanic (SrvState × Option Err) :=
  if s.qchClosed then ([], .error .closeOfClosedChan)
  else
    ((if s.listen then [Event.closeListener] else []) ++ s.conns.map Event.closeConn,
      .ok ({ listen := false, qchClosed := true, conns := [] },
        if s.listen then lres else none))

/-- Outcome of the head of one `acceptLoop` iteration. -/
inductive AcceptHead where
  | exit
  | proceed
deriving DecidableEq

/-- Source: the head of each `Server.acceptLoop` iteration — read
`srv.listen` under the lock and return (ending the loop, so no further
connection is accepted or registered) when it is nil; otherwise proceed to
`fdl.Lock()` and `l.Accept()`. -/
def acceptLoopHead (s : SrvState) : AcceptHead :=
  if s.listen then .proceed else .exit

/-- One server-managed connection, as driven by the mechanics of the source:
`parsed` counts the requests read so far (queries `0..parsed-1` have been
handed over the dispatch channel), `readerActive` tells whether a reader
goroutine is live on the connection, `fwd` lists the queries already
forwarded (`Continue` or `Hijack`), and `written` is the socket's response
sequence by query index.  The wire codec (`http.ServerConn`, absent from
the sources) is modelled from the spec: each `Query.Write` serializes its
response on the connection at invocation time, with no re-sequencing inside
the write side. -/
structure ConnSys where
  parsed : Nat
  readerActive : Bool
  fwd : List Nat
  written : List Nat
deriving DecidableEq

/-- A fresh connection: `acceptLoop` has registered it and spawned its first
reader. -/
def ConnSys.init : ConnSys :=
  { parsed := 0, readerActive := true, fwd := [], written := [] }

/-- Interleaved steps on one connection, from the source mechanics:
`read` is one run of the one-shot reader goroutine (delivers query
`s.parsed` and exits); `cont` is `Query.Continue` on a delivered,
not-yet-forwarded query (re-spawns the reader); `hijack` forwards without
re-spawning; `write` is `Query.Write` on a delivered query, serializing its
response on the socket at invocation time. -/
inductive ConnStep : ConnSys → ConnSys → Prop where
  | read (s : ConnSys) : s.readerActive = true →
      ConnStep s { s with parsed := s.parsed + 1, readerActive := false }
  | cont (s : ConnSys) (i : Nat) : i < s.parsed → i ∉ s.fwd →
      ConnStep s { s with fwd := i :: s.fwd, readerActive := true }
  | hijack (s : ConnSys) (i : Nat) : i < s.parsed → i ∉ s.fwd →
      ConnStep s { s with fwd := i :: s.fwd }
  | write (s : ConnSys) (i : Nat) : i < s.parsed → i ∉ s.written →
      ConnStep s { s with written := s.written ++ [i] }

/-- States reachable from a fresh connection. -/
inductive ConnReach : ConnSys → Prop where
  | init : ConnReach ConnSys.init
  | step {s t : ConnSys} : ConnReach s → ConnStep s t → ConnReach t

/-- `ConnStep` restricted to the write discipline the spec's rationale
assumes: `Write` is invoked only on the oldest outstanding unwritten query
(every earlier query has already been written), as happens when a single
`Read` consumer serves queries in delivery order. -/
inductive ConnStepSeq : ConnSys → ConnSys → Prop where
  | read (s : ConnSys) : s.readerActive = true →
      ConnStepSeq s { s with parsed := s.parsed + 1, readerActive := false }
  | cont (s : ConnSys) (i : Nat) : i < s.parsed → i ∉ s.fwd →
      ConnStepSeq s { s with fwd := i :: s.fwd, readerActive := true }
  | hijack (s : ConnSys) (i : Nat) : i < s.parsed → i ∉ s.fwd →
      ConnStepSeq s { s with fwd := i :: s.fwd }
  | write (s : ConnSys) (i : Nat) : i < s.parsed → i ∉ s.written →
      (∀ j, j < i → j ∈ s.written) →
      ConnStepSeq s { s with written := s.written ++ [i] }

/-- States reachable from a fresh connection under the oldest-first write
discipline. -/
inductive ConnReachSeq : ConnSys → Prop where
  | init : ConnReachSeq ConnSys.init
  | step {s t : ConnSys} : ConnReachSeq s → ConnStepSeq s t → ConnReachSeq t

/-- The reader-gate invariant of one connection: forwarded queries are
distinct delivered queries; the parsed count never exceeds the forwarded
count by more than one (and not at all while a reader goroutine is live),
so at most one delivered query awaits its Continue; written responses are
distinct delivered queries. -/
def ConnInv (s : ConnSys) : Prop :=
  s.fwd.Nodup ∧ (∀ i ∈ s.fwd, i < s.parsed) ∧
  (s.readerActive = true → s.parsed ≤ s.fwd.length) ∧
  s.parsed ≤ s.fwd.length + 1 ∧
  s.written.Nodup ∧ (∀ i ∈ s.written, i < s.parsed)

/-- Modelled from the spec: the segment pass of Go's lexical `path.Clean`
(the spec's "string prefix on the cleaned path"; the library itself is
outside the sources).  Processes slash-separated segments against a stack:
drop empty and `.` segments; `..` pops the previous segment, is dropped at
the root, and is kept when the path is relative and nothing is left to
pop. -/
def cleanSegs (rooted : Bool) : List GoStr → List GoStr → List GoStr
  | stack, [] => stack.reverse
  | stack, seg :: rest =>
    if seg = [] ∨ seg = ['.'] then cleanSegs rooted stack rest
    else if seg = ['.', '.'] then
      match stack with
      | [] => if rooted then cleanSegs rooted [] rest else cleanSegs rooted [['.', '.']] rest
      | top :: stack1 =>
        if top = ['.', '.'] then cleanSegs rooted (seg :: top :: stack1) rest
        else cleanSegs rooted stack1 rest
    else cleanSegs rooted (seg :: stack) rest

/-- Modelled from the spec: Go's lexical `path.Clean`. -/
def cleanPath (p : GoStr) : GoStr :=
  if p = [] then ['.']
  else
    let rooted := p.head? = some '/'
    let segs := cleanSegs rooted [] (List.splitOn '/' p)
    let out := (if rooted then ['/'] else []) ++ List.intercalate ['/'] segs
    if out = [] then ['.'] else out

/-- Modelled from the spec: sub-handler matching performed on the cleaned
path ("Matching discipline: string prefix on the cleaned path"), for
comparison against the source's `subFind` on the raw path. -/
def subFindCleaned (p : GoStr) (subs : List subcfg) : Option (Nat × GoStr) :=
  subFind (cleanPath p) subs

/-- Extension names recorded for `ReadRequest` invocations in a trace. -/
def readNames (evs : List Event) : List GoStr :=
  evs.filterMap (fun e => match e with | .readRequest n => some n | _ => none)

/-- Extension names recorded for `WriteResponse` invocations in a trace. -/
def writeNames (evs : List Event) : List GoStr :=
  evs.filterMap (fun e => match e with | .writeResponse n => some n | _ => none)

/-- Sanity evaluation: the modelled path cleaning collapses duplicate
slashes and resolves dot segments like Go's path.Clean. -/
theorem cleanPath_eval :
    cleanPath (gs "/a//b") = gs "/a/b" ∧
    cleanPath (gs "/a/./b/../c") = gs "/a/c" ∧
    cleanPath (gs "/") = gs "/" ∧
    cleanPath (gs "a/../../b") = gs "../b" := by
  refine ⟨by decide, by decide, by decide, by decide⟩

/-- Sanity evaluation: the sub-handler scan strips the matching prefix, and
serving is recorded with the stripped path. -/
theorem subFind_eval :
    subFind (gs "/api/ping") [⟨gs "/x/"⟩, ⟨gs "/api/"⟩] = some (1, gs "ping") ∧
    (process [] [⟨gs "/api/"⟩] (mkReadQuery ⟨gs "/api/ping"⟩ 3)).1 =
      [.serve 0 (gs "ping")] := by
  refine ⟨by decide, by decide⟩

/-- Preservation: a non-panicking run of limiter calls keeps the invariant. -/
theorem runFDOps_inv (ops : List FDOp) (fdl : FDLimiter) (h : FDInv fdl) :
    ∀ fdl1, runFDOps ops fdl = .ok fdl1 → FDInv fdl1 := by
  induction ops generalizing fdl with
  | nil =>
    intro fdl1 h1
    simp only [runFDOps] at h1
    cases h1
    exact h
  | cons op rest ih =>
    intro fdl1 h1
    obtain ⟨ha, hb⟩ := h
    cases op with
    | lock =>
      simp only [runFDOps, FDLimiter.Lock] at h1
      by_cases hl : fdl.count < fdl.limit
      · rw [if_pos hl] at h1
        exact ih { fdl with count := fdl.count + 1 }
          ⟨show (0:Int) ≤ fdl.count + 1 by omega, show fdl.count + 1 ≤ fdl.limit by omega⟩
          fdl1 h1
      · rw [if_neg hl] at h1
        exact ih fdl ⟨ha, hb⟩ fdl1 h1
    | unlock =>
      simp only [runFDOps, FDLimiter.Unlock] at h1
      by_cases hu : fdl.count ≤ 0
      · rw [if_pos hu] at h1
        cases h1
      · rw [if_neg hu] at h1
        exact ih { fdl with count := fdl.count - 1 }
          ⟨show (0:Int) ≤ fdl.count - 1 by omega, show fdl.count - 1 ≤ fdl.limit by omega⟩
          fdl1 h1

/-- C7: the fd limiter maintains `0 ≤ count ≤ limit` at every observable
moment — `Init` requires a positive limit and starts the counter at zero,
`Lock` increments exactly when `count < limit` (otherwise the caller stays
blocked, with no state change), `Unlock` panics when the counter is not
positive and otherwise decrements, and every non-panicking call sequence
from an initialized limiter preserves the invariant. -/
theorem fd_limiter_invariant (fdlim : Int) (ops : List FDOp) (fdl0 fdl : FDLimiter)
    (hinit : FDLimiter.Init fdlim = .ok fdl0)
    (hrun : runFDOps ops fdl0 = .ok fdl) :
    (0 < fdlim ∧ fdl0.count = 0 ∧ fdl0.limit = fdlim) ∧
    FDInv fdl0 ∧ FDInv fdl ∧
    (∀ g g1 : FDLimiter, g.Lock = some g1 →
      g.count < g.limit ∧ g1.count = g.count + 1 ∧ g1.limit = g.limit) ∧
    (∀ g : FDLimiter, ¬ g.count < g.limit → g.Lock = none) ∧
    (∀ g : FDLimiter, g.count ≤ 0 → g.Unlock = .error .fdLimiter) ∧
    (∀ g g1 : FDLimiter, g.Unlock = .ok g1 →
      0 < g.count ∧ g1.count = g.count - 1 ∧ g1.limit = g.limit) := by
  have hpq : ¬ fdlim ≤ 0 := by
    intro hp
    simp [FDLimiter.Init, hp] at hinit
  have h0 : fdl0 = { limit := fdlim, count := 0 } := by
    rw [FDLimiter.Init, if_neg hpq] at hinit
    cases hinit
    rfl
  have hinv0 : FDInv fdl0 := by
    rw [h0]
    exact ⟨le_refl 0, show (0:Int) ≤ fdlim by omega⟩
  refine ⟨⟨by omega, by rw [h0], by rw [h0]⟩, hinv0, runFDOps_inv ops fdl0 hinv0 fdl hrun,
    ?_, ?_, ?_, ?_⟩
  · intro g g1 hg
    rw [FDLimiter.Lock] at hg
    by_cases hl : g.count < g.limit
    · rw [if_pos hl] at hg
      cases hg
      exact ⟨hl, rfl, rfl⟩
    · rw [if_neg hl] at hg
      cases hg
  · intro g hg
    rw [FDLimiter.Lock, if_neg hg]
  · intro g hg
    rw [FDLimiter.Unlock, if_pos hg]
  · intro g g1 hg
    rw [FDLimiter.Unlock] at hg
    by_cases hu : g.count ≤ 0
    · rw [if_pos hu] at hg
      cases hg
    · rw [if_neg hu] at hg
      cases hg
      exact ⟨by omega, rfl, rfl⟩

theorem fd_limiter_invariant_witness :
    FDLimiter.Init 2 = .ok ⟨2, 0⟩ ∧
    runFDOps [FDOp.lock, FDOp.lock, FDOp.lock, FDOp.unlock] ⟨2, 0⟩ = .ok ⟨2, 1⟩ ∧
    FDInv ⟨2, 1⟩ :=
  ⟨rfl, rfl,
    (fd_limiter_invariant 2 [FDOp.lock, FDOp.lock, FDOp.lock, FDOp.unlock] ⟨2, 0⟩ ⟨2, 1⟩
      rfl rfl).2.2.1⟩

/-- C2: for a Query as handed out by Server.Read (not yet forwarded, live
back-references), the first call to Continue or Hijack succeeds and sets the
forwarded flag; any subsequent Continue or Hijack on the resulting query
panics — double Continue, double Hijack, Continue-then-Hijack and
Hijack-then-Continue all panic. -/
theorem query_single_forward (q : Query) (c : Nat)
    (hf : q.fwd = false) (hs : q.srv = true) (hc : q.ssc = some c) :
    ((q.Continue).2 = .ok { q with fwd := true } ∧
      ({ q with fwd := true } : Query).fwd = true) ∧
    ((q.Hijack).2 = .ok ({ q with fwd := true, hijacked := true, srv := false, ssc := none }, c) ∧
      ({ q with fwd := true, hijacked := true, srv := false, ssc := none } : Query).fwd = true) ∧
    (∀ q1 : Query, (q.Continue).2 = .ok q1 →
      (q1.Continue).2 = .error .continueHijack ∧
      (q1.Hijack).2 = .error .continueAndHijack) ∧
    (∀ (q1 : Query) (c1 : Nat), (q.Hijack).2 = .ok (q1, c1) →
      (q1.Continue).2 = .error .continueHijack ∧
      (q1.Hijack).2 = .error .continueAndHijack) := by
  have hcont : (q.Continue).2 = .ok { q with fwd := true } := by
    simp [Query.Continue, hf, hs]
  have hhij : (q.Hijack).2 =
      .ok ({ q with fwd := true, hijacked := true, srv := false, ssc := none }, c) := by
    simp [Query.Hijack, hf, hs, hc]
  refine ⟨⟨hcont, rfl⟩, ⟨hhij, rfl⟩, ?_, ?_⟩
  · intro q1 h1
    rw [hcont] at h1
    cases h1
    exact ⟨by simp [Query.Continue], by simp [Query.Hijack]⟩
  · intro q1 c1 h1
    rw [hhij] at h1
    cases h1
    exact ⟨by simp [Query.Continue], by simp [Query.Hijack]⟩

theorem query_single_forward_witness :
    (mkReadQuery ⟨gs "/w"⟩ 1).fwd = false ∧
    ((mkReadQuery ⟨gs "/w"⟩ 1).Continue).2 = .ok { mkReadQuery ⟨gs "/w"⟩ 1 with fwd := true } :=
  ⟨rfl, (query_single_forward (mkReadQuery ⟨gs "/w"⟩ 1) 1 rfl rfl rfl).1.1⟩

/-- C8: `ContinueAndWrite(resp)` is the sequential composition of Continue
followed by Write — it performs Continue first, then Write on the forwarded
query, returns Write's result, and its observable effect trace is the
concatenation of the two operations' traces. -/
theorem continue_and_write_equiv (exts : List extcfg) (cw : Option Err) (q : Query)
    (resp : Response) :
    Query.ContinueAndWrite exts cw q resp = continueThenWrite exts cw q resp := by
  unfold Query.ContinueAndWrite continueThenWrite
  rcases hq : q.Continue with ⟨evs, r⟩
  cases r with
  | error p => simp
  | ok q1 => simp

/-- C10: after a terminal transition — a Hijack, or a Write that returned an
error and buried the connection — the query's server and connection
references are nil, a further Write on it panics with a nil dereference, a
further Continue panics, and Write never consults the `hijacked` flag (its
trace and outcome are the same for both values of the flag). -/
theorem terminal_write_continue_panic (q : Query) (c : Nat) (exts : List extcfg)
    (cw : Option Err) (resp resp2 : Response)
    (hs : q.srv = true) (hc : q.ssc = some c) :
    (∀ (q1 : Query) (c1 : Nat), (q.Hijack).2 = .ok (q1, c1) →
      q1.srv = false ∧ q1.ssc = none ∧
      (Query.Write exts cw q1 resp2).2 = .error .nilDeref ∧
      (∃ p, (q1.Continue).2 = .error p)) ∧
    (∀ (q1 : Query) (e : Err), (Query.Write exts cw q resp).2 = .ok (q1, some e) →
      q1.srv = false ∧ q1.ssc = none ∧
      (Query.Write exts cw q1 resp2).2 = .error .nilDeref ∧
      (∃ p, (q1.Continue).2 = .error p)) ∧
    (∀ b : Bool,
      (Query.Write exts cw { q with hijacked := b } resp).1 =
        (Query.Write exts cw q resp).1 ∧
      (Query.Write exts cw { q with hijacked := b } resp).2 =
        (Query.Write exts cw q resp).2.map (fun r => ({ r.1 with hijacked := b }, r.2))) := by
  have hwq : ∀ q1 : Query, q1.srv = false →
      (Query.Write exts cw q1 resp2).2 = .error .nilDeref := by
    intro q1 h1
    simp [Query.Write, h1]
  have hcq : ∀ q1 : Query, q1.srv = false → ∃ p, (q1.Continue).2 = .error p := by
    intro q1 h1
    cases hf1 : q1.fwd with
    | true => exact ⟨.continueHijack, by simp [Query.Continue, hf1]⟩
    | false => exact ⟨.queryZombie, by simp [Query.Continue, hf1, h1]⟩
  refine ⟨?_, ?_, ?_⟩
  · intro q1 c1 h1
    cases hf : q.fwd with
    | true => simp [Query.Hijack, hf] at h1
    | false =>
      simp only [Query.Hijack, hf, Bool.false_eq_true, if_false, hs, hc] at h1
      simp only [Bool.true_eq_false, if_false, Except.ok.injEq, Prod.mk.injEq] at h1
      obtain ⟨hq1, hc1⟩ := h1
      subst hq1
      exact ⟨rfl, rfl, hwq _ rfl, hcq _ rfl⟩
  · intro q1 e h1
    rcases hrun : chainRun (fun ec => ec.Ext.writeResult) q.origPath (copyExtRev exts)
      with ⟨invoked, res⟩
    cases res with
    | some e2 =>
      simp only [Query.Write, hs, Bool.true_eq_false, if_false, hrun, hc,
        Except.ok.injEq, Prod.mk.injEq, Option.some.injEq] at h1
      obtain ⟨hq1, he⟩ := h1
      subst hq1
      exact ⟨rfl, rfl, hwq _ rfl, hcq _ rfl⟩
    | none =>
      cases cw with
      | some e2 =>
        simp only [Query.Write, hs, Bool.true_eq_false, if_false, hrun, hc,
          Except.ok.injEq, Prod.mk.injEq, Option.some.injEq] at h1
        obtain ⟨hq1, he⟩ := h1
        subst hq1
        exact ⟨rfl, rfl, hwq _ rfl, hcq _ rfl⟩
      | none =>
        simp only [Query.Write, hs, Bool.true_eq_false, if_false, hrun, hc,
          Except.ok.injEq, Prod.mk.injEq] at h1
        exact absurd h1.2 (by simp)
  · intro b
    rcases hrun : chainRun (fun ec => ec.Ext.writeResult) q.origPath (copyExtRev exts)
      with ⟨invoked, res⟩
    have hrun2 : chainRun (fun ec => ec.Ext.writeResult)
        ({ q with hijacked := b } : Query).origPath (copyExtRev exts) = (invoked, res) := hrun
    cases res with
    | some e2 =>
      constructor
      · simp [Query.Write, hs, hc, hrun, hrun2]
      · simp [Query.Write, hs, hc, hrun, hrun2, Except.map]
    | none =>
      cases cw with
      | some e2 =>
        constructor
        · simp [Query.Write, hs, hc, hrun, hrun2]
        · simp [Query.Write, hs, hc, hrun, hrun2, Except.map]
      | none =>
        constructor
        · simp [Query.Write, hs, hc, hrun, hrun2]
        · simp [Query.Write, hs, hc, hrun, hrun2, Except.map]

/-- Bridge between the boolean prefix test and its propositional form. -/
theorem isPre_of_bool {a b : GoStr} (h : a.isPrefixOf b = true) : a <+: b := by
  simpa using h

/-- Bridge between the propositional prefix relation and the boolean test. -/
theorem bool_of_isPre {a b : GoStr} (h : a <+: b) : a.isPrefixOf b = true := by
  simpa using h

/-- A chain pass whose hooks all succeed invokes exactly the matching
configs, in list order, and reports no error. -/
theorem chainRun_all_ok (f : extcfg → Option Err) (p : GoStr) (l : List extcfg)
    (h : ∀ ec ∈ l, ec.SubURL.isPrefixOf p = true → f ec = none) :
    chainRun f p l = (l.filter (fun ec => ec.SubURL.isPrefixOf p), none) := by
  induction l with
  | nil => rfl
  | cons ec rest ih =>
    have ih2 := ih (fun x hx hpx => h x (List.mem_cons_of_mem ec hx) hpx)
    by_cases hp : ec.SubURL.isPrefixOf p = true
    · have hf := h ec (List.mem_cons_self ec rest) hp
      simp [chainRun, hp, hf, ih2, List.filter_cons]
    · simp [chainRun, hp, ih2, List.filter_cons]

/-- A chain pass reports an error exactly when some matching config's hook
fails. -/
theorem chainRun_fail_iff (f : extcfg → Option Err) (p : GoStr) (l : List extcfg) :
    (chainRun f p l).2 ≠ none ↔ ∃ ec ∈ l, ec.SubURL.isPrefixOf p = true ∧ f ec ≠ none := by
  induction l with
  | nil => simp [chainRun]
  | cons ec rest ih =>
    by_cases hp : ec.SubURL.isPrefixOf p = true
    · cases hf : f ec with
      | some e =>
        simp [chainRun, hp, hf]
        exact Or.inl (isPre_of_bool hp)
      | none => simp [chainRun, hp, hf, ih]
    · simp [chainRun, hp, ih]
      intro hpre2 hfe
      exact absurd (bool_of_isPre hpre2) hp

/-- The sub-handler scan finds nothing exactly when no registered prefix
matches. -/
theorem subFind_eq_none_iff (p : GoStr) (subs : List subcfg) :
    subFind p subs = none ↔ ∀ sc ∈ subs, sc.SubURL.isPrefixOf p = false := by
  induction subs with
  | nil => simp [subFind]
  | cons sc rest ih =>
    by_cases hp : sc.SubURL.isPrefixOf p = true
    · simp [subFind, hp]
    · simp [subFind, hp, ih]

/-- The first matching sub-handler wins: with no match before it, the scan
returns its position and the path with its prefix stripped. -/
theorem subFind_first_match (p : GoStr) (pre post : List subcfg) (sc : subcfg)
    (hpre : ∀ x ∈ pre, x.SubURL.isPrefixOf p = false)
    (hsc : sc.SubURL.isPrefixOf p = true) :
    subFind p (pre ++ sc :: post) = some (pre.length, p.drop sc.SubURL.length) := by
  induction pre with
  | nil => simp [subFind, hsc]
  | cons a rest ih =>
    have ha : a.SubURL.isPrefixOf p = false := hpre a (List.mem_cons_self a rest)
    have ih2 := ih (fun x hx => hpre x (List.mem_cons_of_mem a hx))
    simp [subFind, ha, ih2]

/-- A successful sub-handler scan exhibits a matching registered prefix. -/
theorem subFind_some_mem (p : GoStr) (subs : List subcfg) (i : Nat) (s : GoStr)
    (h : subFind p subs = some (i, s)) :
    ∃ sc ∈ subs, sc.SubURL.isPrefixOf p = true := by
  by_contra hne
  rw [not_exists] at hne
  have hall : ∀ sc ∈ subs, sc.SubURL.isPrefixOf p = false := by
    intro sc hm
    have := hne sc
    rw [not_and] at this
    have h2 := this hm
    revert h2
    cases sc.SubURL.isPrefixOf p <;> simp
  rw [(subFind_eq_none_iff p subs).mpr hall] at h
  cases h

theorem terminal_write_continue_panic_witness :
    ((mkReadQuery ⟨gs "/h"⟩ 7).Hijack).2 =
      .ok ({ mkReadQuery ⟨gs "/h"⟩ 7 with
              fwd := true, hijacked := true, srv := false, ssc := none }, 7) ∧
    (Query.Write [] none
        { mkReadQuery ⟨gs "/h"⟩ 7 with
            fwd := true, hijacked := true, srv := false, ssc := none } ⟨0⟩).2 =
      .error .nilDeref :=
  ⟨rfl,
    ((terminal_write_continue_panic (mkReadQuery ⟨gs "/h"⟩ 7) 7 [] none ⟨0⟩ ⟨0⟩ rfl rfl).1
      _ 7 rfl).2.2.1⟩

/-- C4: sub-handlers are tried in registration order and the first whose
prefix matches the query's current URL path wins — on a match Serve runs on
the query with the path rewritten to the path minus the prefix, and the
query is consumed (`process` returns nil, so Read loops past it); when no
registered prefix matches, the query comes back out of `process` (and is
returned by Read) with its path untouched, changed only by the scratch-map
initialization `process` always performs. -/
theorem subhandler_first_match (exts : List extcfg) (subs pre post : List subcfg)
    (sc : subcfg) (q : Query) (req : Request) (rest : List Query)
    (hreq : q.Req = some req) (herr : q.err = none)
    (hok : ∀ ec ∈ exts, ec.SubURL.isPrefixOf q.origPath = true → ec.Ext.readResult = none) :
    ((∀ x ∈ subs, x.SubURL.isPrefixOf req.path = false) →
      (process exts subs q).2 = .ok (some { q with Ext := some () }) ∧
      (serverRead exts subs (q :: rest)).2 = .ok (.query { q with Ext := some () })) ∧
    (subs = pre ++ sc :: post →
      (∀ x ∈ pre, x.SubURL.isPrefixOf req.path = false) →
      sc.SubURL.isPrefixOf req.path = true →
      (process exts subs q).2 = .ok none ∧
      (process exts subs q).1 =
        (exts.filter (fun ec => ec.SubURL.isPrefixOf q.origPath)).map
          (fun ec => Event.readRequest ec.Name) ++
        [Event.serve pre.length (req.path.drop sc.SubURL.length)] ∧
      (serverRead exts subs (q :: rest)).2 = (serverRead exts subs rest).2) := by
  have hchain := chainRun_all_ok (fun ec => ec.Ext.readResult) q.origPath exts hok
  constructor
  · intro hnone
    have hsf := (subFind_eq_none_iff req.path subs).mpr hnone
    have hp : process exts subs q =
        ((exts.filter (fun ec => ec.SubURL.isPrefixOf q.origPath)).map
          (fun ec => Event.readRequest ec.Name), .ok (some { q with Ext := some () })) := by
      simp [process, hchain, hreq, hsf]
    refine ⟨by rw [hp], ?_⟩
    simp [serverRead, herr, hp]
  · intro hsubs hpre hsc
    subst hsubs
    have hsf := subFind_first_match req.path pre post sc hpre hsc
    have hp : process exts (pre ++ sc :: post) q =
        ((exts.filter (fun ec => ec.SubURL.isPrefixOf q.origPath)).map
          (fun ec => Event.readRequest ec.Name) ++
          [Event.serve pre.length (req.path.drop sc.SubURL.length)], .ok none) := by
      simp [process, hchain, hreq, hsf]
    refine ⟨by rw [hp], by rw [hp], ?_⟩
    simp [serverRead, herr, hp]

theorem subhandler_first_match_witness :
    (process [] [⟨gs "/x/"⟩, ⟨gs "/api/"⟩] (mkReadQuery ⟨gs "/api/ping"⟩ 3)).2 = .ok none ∧
    (process [] [⟨gs "/x/"⟩, ⟨gs "/api/"⟩] (mkReadQuery ⟨gs "/api/ping"⟩ 3)).1 =
      [Event.serve 1 (gs "ping")] := by
  have h := (subhandler_first_match [] [⟨gs "/x/"⟩, ⟨gs "/api/"⟩] [⟨gs "/x/"⟩] []
      ⟨gs "/api/"⟩ (mkReadQuery ⟨gs "/api/ping"⟩ 3) ⟨gs "/api/ping"⟩ [] rfl rfl
      (by intro ec hec; simp at hec)).2 rfl (by decide) (by decide)
  exact ⟨h.1, h.2.1.trans (by decide)⟩

/-- C5 counterexample: a sub-handler is registered at "/a/b" and a request
arrives with raw path "/a//b".  The cleaned path (as by path.Clean) is
"/a/b", which the registered prefix does match — yet the source's matcher
(Server.process, current generation) compares the raw path and does not
fire, returning the query unconsumed: matching is not performed on the
cleaned path. -/
theorem sub_match_not_cleaned_cex :
    subFind (gs "/a//b") [⟨gs "/a/b"⟩] = none ∧
    cleanPath (gs "/a//b") = gs "/a/b" ∧
    subFindCleaned (gs "/a//b") [⟨gs "/a/b"⟩] = some (0, []) ∧
    (process [] [⟨gs "/a/b"⟩] (mkReadQuery ⟨gs "/a//b"⟩ 0)).2 =
      .ok (some { mkReadQuery ⟨gs "/a//b"⟩ 0 with Ext := some () }) :=
  ⟨by decide, by decide, by decide, rfl⟩

/-- C5 amended: sub-handler prefix matching is performed by string prefix on
the raw URL path exactly as parsed — the current `Server.process` applies no
lexical cleaning before the comparison (the cleaning discipline exists only
in the older `Server.dispatch` generation, via `Query.GetPath`). -/
theorem sub_match_raw_path (subs : List subcfg) (q : Query) (req : Request)
    (hreq : q.Req = some req) :
    ((process [] subs q).2 = .ok none ↔
      ∃ sc ∈ subs, sc.SubURL.isPrefixOf req.path = true) ∧
    ((process [] subs q).2 = .ok (some { q with Ext := some () }) ↔
      ∀ sc ∈ subs, sc.SubURL.isPrefixOf req.path = false) := by
  cases hsf : subFind req.path subs with
  | none =>
    have hall := (subFind_eq_none_iff req.path subs).mp hsf
    have hp : (process [] subs q).2 = .ok (some { q with Ext := some () }) := by
      simp [process, chainRun, hreq, hsf]
    constructor
    · constructor
      · intro h
        rw [hp] at h
        simp at h
      · rintro ⟨sc, hm, hmt⟩
        rw [hall sc hm] at hmt
        simp at hmt
    · exact ⟨fun _ => hall, fun _ => hp⟩
  | some r =>
    obtain ⟨i, s⟩ := r
    have hex := subFind_some_mem req.path subs i s hsf
    have hp : (process [] subs q).2 = .ok none := by
      simp [process, chainRun, hreq, hsf]
    constructor
    · exact ⟨fun _ => hex, fun _ => hp⟩
    · constructor
      · intro h
        rw [hp] at h
        simp at h
      · intro hall
        obtain ⟨sc, hm, hmt⟩ := hex
        rw [hall sc hm] at hmt
        simp at hmt

theorem sub_match_raw_path_witness :
    (process [] [⟨gs "/a/b"⟩] (mkReadQuery ⟨gs "/a/b/c"⟩ 0)).2 = .ok none :=
  ((sub_match_raw_path [⟨gs "/a/b"⟩] (mkReadQuery ⟨gs "/a/b/c"⟩ 0) ⟨gs "/a/b/c"⟩ rfl).1).mpr
    ⟨⟨gs "/a/b"⟩, by decide, by decide⟩

/-- Projecting ReadRequest events back to extension names inverts the event
construction. -/
theorem readNames_map (l : List extcfg) :
    readNames (l.map (fun ec => Event.readRequest ec.Name)) = l.map extcfg.Name := by
  induction l with
  | nil => rfl
  | cons a t ih =>
    simp only [readNames, List.map_cons, List.filterMap_cons] at ih ⊢
    rw [ih]

/-- Projecting WriteResponse events back to extension names inverts the
event construction. -/
theorem writeNames_map (l : List extcfg) :
    writeNames (l.map (fun ec => Event.writeResponse ec.Name)) = l.map extcfg.Name := by
  induction l with
  | nil => rfl
  | cons a t ih =>
    simp only [writeNames, List.map_cons, List.filterMap_cons] at ih ⊢
    rw [ih]

/-- The ReadRequest invocations recorded by `process` are exactly the names
of the forward chain pass over the snapshot against `origPath`, whatever the
request field and the sub-handler registry hold. -/
theorem process_readNames (exts : List extcfg) (subs : List subcfg) (q : Query) :
    readNames ((process exts subs q).1) =
      ((chainRun (fun ec => ec.Ext.readResult) q.origPath exts).1).map extcfg.Name := by
  rcases hrun : chainRun (fun ec => ec.Ext.readResult) q.origPath exts with ⟨invoked, res⟩
  have hnames := readNames_map invoked
  cases res with
  | some e => simp [process, hrun, hnames]
  | none =>
    cases hq : q.Req with
    | none => simp [process, hrun, hq, hnames]
    | some req =>
      cases hsf : subFind req.path subs with
      | none => simp [process, hrun, hq, hsf, hnames]
      | some r =>
        obtain ⟨i, p2⟩ := r
        simp only [readNames] at hnames
        simp [process, hrun, hq, hsf, readNames, List.filterMap_append, hnames]

/-- The WriteResponse invocations recorded by `Query.Write` are exactly the
names of the reverse chain pass over the reversed snapshot against
`origPath`. -/
theorem write_writeNames (exts : List extcfg) (cw : Option Err) (q : Query) (resp : Response)
    (hs : q.srv = true) :
    writeNames ((Query.Write exts cw q resp).1) =
      ((chainRun (fun ec => ec.Ext.writeResult) q.origPath (copyExtRev exts)).1).map
        extcfg.Name := by
  rcases hrun : chainRun (fun ec => ec.Ext.writeResult) q.origPath (copyExtRev exts)
    with ⟨invoked, res⟩
  have hnames := writeNames_map invoked
  simp only [writeNames] at hnames
  cases res with
  | some e =>
    cases hc : q.ssc with
    | some c => simp [Query.Write, hs, hrun, hc, writeNames, List.filterMap_append, hnames]
    | none => simp [Query.Write, hs, hrun, hc, writeNames, hnames]
  | none =>
    cases hc : q.ssc with
    | none => simp [Query.Write, hs, hrun, hc, writeNames, hnames]
    | some c =>
      cases cw with
      | some e2 => simp [Query.Write, hs, hrun, hc, writeNames, List.filterMap_append, hnames]
      | none => simp [Query.Write, hs, hrun, hc, writeNames, List.filterMap_append, hnames]

/-- C6 counterexample: extensions a (whose WriteResponse succeeds) and b
(whose WriteResponse fails) both match.  ReadRequest runs for a then b, but
when Write runs the reverse chain it stops at b's failure, so WriteResponse
runs only for b: the set of extensions whose WriteResponse ran differs from
the set whose ReadRequest ran. -/
theorem ext_chain_symmetry_cex :
    readNames ((process
        [⟨gs "a", gs "/", ⟨none, none⟩⟩, ⟨gs "b", gs "/", ⟨none, some (Err.mk 1)⟩⟩]
        [] (mkReadQuery ⟨gs "/x"⟩ 2)).1) = [gs "a", gs "b"] ∧
    writeNames ((Query.Write
        [⟨gs "a", gs "/", ⟨none, none⟩⟩, ⟨gs "b", gs "/", ⟨none, some (Err.mk 1)⟩⟩]
        none (mkReadQuery ⟨gs "/x"⟩ 2) ⟨9⟩).1) = [gs "b"] ∧
    gs "a" ∈ ([gs "a", gs "b"] : List GoStr) ∧ gs "a" ∉ ([gs "b"] : List GoStr) :=
  ⟨by decide, by decide, by decide, by decide⟩

/-- C6 amended: when every matching extension hook succeeds, the set of
extensions whose ReadRequest runs (the matching snapshot in registration
order) equals the set whose WriteResponse runs, and the WriteResponse
invocations occur in exactly the reverse order; both chains match against
the query's original pre-rewrite path (`origPath`), independent of the
current — possibly sub-handler-stripped — request path.  A failing
WriteResponse truncates the reverse chain at the failure (and a failing
ReadRequest truncates the forward chain and drops the query), breaking the
set equality. -/
theorem ext_chain_symmetry (exts : List extcfg) (subs : List subcfg) (q : Query)
    (cw : Option Err) (resp : Response)
    (hs : q.srv = true)
    (hr : ∀ ec ∈ exts, ec.SubURL.isPrefixOf q.origPath = true → ec.Ext.readResult = none)
    (hw : ∀ ec ∈ exts, ec.SubURL.isPrefixOf q.origPath = true → ec.Ext.writeResult = none) :
    readNames ((process exts subs q).1) =
      (exts.filter (fun ec => ec.SubURL.isPrefixOf q.origPath)).map extcfg.Name ∧
    writeNames ((Query.Write exts cw q resp).1) =
      (readNames ((process exts subs q).1)).reverse ∧
    (∀ r1 r2 : Option Request,
      readNames ((process exts subs { q with Req := r1 }).1) =
        readNames ((process exts subs { q with Req := r2 }).1)) ∧
    (∀ r1 r2 : Option Request,
      writeNames ((Query.Write exts cw { q with Req := r1 } resp).1) =
        writeNames ((Query.Write exts cw { q with Req := r2 } resp).1)) := by
  have hwrev : ∀ ec ∈ copyExtRev exts, ec.SubURL.isPrefixOf q.origPath = true →
      ec.Ext.writeResult = none := by
    intro ec hm
    exact hw ec (List.mem_reverse.mp hm)
  have hcr := chainRun_all_ok (fun ec => ec.Ext.readResult) q.origPath exts hr
  have hcw := chainRun_all_ok (fun ec => ec.Ext.writeResult) q.origPath (copyExtRev exts) hwrev
  have h1 : readNames ((process exts subs q).1) =
      (exts.filter (fun ec => ec.SubURL.isPrefixOf q.origPath)).map extcfg.Name := by
    rw [process_readNames, hcr]
  have h2 : writeNames ((Query.Write exts cw q resp).1) =
      ((exts.filter (fun ec => ec.SubURL.isPrefixOf q.origPath)).map extcfg.Name).reverse := by
    rw [write_writeNames exts cw q resp hs, hcw]
    rw [copyExtRev, List.filter_reverse, List.map_reverse]
  refine ⟨h1, h2.trans (by rw [h1]), ?_, ?_⟩
  · intro r1 r2
    rw [process_readNames, process_readNames]
  · intro r1 r2
    rw [write_writeNames exts cw { q with Req := r1 } resp hs,
      write_writeNames exts cw { q with Req := r2 } resp hs]

theorem ext_chain_symmetry_witness :
    readNames ((process [⟨gs "a", gs "/", ⟨none, none⟩⟩, ⟨gs "b", gs "/", ⟨none, none⟩⟩]
        [] (mkReadQuery ⟨gs "/x"⟩ 2)).1) = [gs "a", gs "b"] ∧
    writeNames ((Query.Write [⟨gs "a", gs "/", ⟨none, none⟩⟩, ⟨gs "b", gs "/", ⟨none, none⟩⟩]
        none (mkReadQuery ⟨gs "/x"⟩ 2) ⟨9⟩).1) = [gs "b", gs "a"] := by
  have h := ext_chain_symmetry
    [⟨gs "a", gs "/", ⟨none, none⟩⟩, ⟨gs "b", gs "/", ⟨none, none⟩⟩]
    [] (mkReadQuery ⟨gs "/x"⟩ 2) none ⟨9⟩ rfl (by decide) (by decide)
  refine ⟨h.1.trans (by decide), h.2.1.trans ?_⟩
  rw [h.1]
  decide

/-- C9: extension failures are handled asymmetrically.  If some matching
extension's ReadRequest fails during processing, the query is dropped —
no sub-handler Serve runs, `process` returns nil, and Read proceeds to the
next arriving query.  If some matching extension's WriteResponse fails
during Query.Write, the connection is buried (unregistered from the live
set and closed), no response reaches it, and the error is returned to the
Write caller. -/
theorem ext_failure_asymmetry (exts : List extcfg) (subs : List subcfg) (q : Query)
    (cw : Option Err) (resp : Response) (c : Nat) (rest : List Query)
    (herr : q.err = none) (hs : q.srv = true) (hc : q.ssc = some c) :
    ((∃ ec ∈ exts, ec.SubURL.isPrefixOf q.origPath = true ∧ ec.Ext.readResult ≠ none) →
      (process exts subs q).2 = .ok none ∧
      (∀ i p2, Event.serve i p2 ∉ (process exts subs q).1) ∧
      (serverRead exts subs (q :: rest)).2 = (serverRead exts subs rest).2) ∧
    ((∃ ec ∈ exts, ec.SubURL.isPrefixOf q.origPath = true ∧ ec.Ext.writeResult ≠ none) →
      ∃ e : Err,
        (Query.Write exts cw q resp).2 =
          .ok ({ q with Req := none, Ext := none, ssc := none, srv := false }, some e) ∧
        Event.unregister c ∈ (Query.Write exts cw q resp).1 ∧
        Event.closeConn c ∈ (Query.Write exts cw q resp).1 ∧
        (∀ r, Event.connWrite c r ∉ (Query.Write exts cw q resp).1)) := by
  constructor
  · intro hex
    have hfail := (chainRun_fail_iff (fun ec => ec.Ext.readResult) q.origPath exts).mpr hex
    rcases hrun : chainRun (fun ec => ec.Ext.readResult) q.origPath exts with ⟨invoked, res⟩
    rw [hrun] at hfail
    cases res with
    | none => exact absurd rfl hfail
    | some e =>
      have hp : process exts subs q =
          (invoked.map (fun ec => Event.readRequest ec.Name), .ok none) := by
        simp [process, hrun]
      refine ⟨by rw [hp], ?_, ?_⟩
      · intro i p2 hmem
        rw [hp] at hmem
        simp at hmem
      · simp [serverRead, herr, hp]
  · intro hex
    have hex2 : ∃ ec ∈ copyExtRev exts, ec.SubURL.isPrefixOf q.origPath = true ∧
        ec.Ext.writeResult ≠ none := by
      obtain ⟨ec, hm, h1, h2⟩ := hex
      exact ⟨ec, List.mem_reverse.mpr hm, h1, h2⟩
    have hfail := (chainRun_fail_iff (fun ec => ec.Ext.writeResult) q.origPath
      (copyExtRev exts)).mpr hex2
    rcases hrun : chainRun (fun ec => ec.Ext.writeResult) q.origPath (copyExtRev exts)
      with ⟨invoked, res⟩
    rw [hrun] at hfail
    cases res with
    | none => exact absurd rfl hfail
    | some e =>
      have hp : Query.Write exts cw q resp =
          (invoked.map (fun ec => Event.writeResponse ec.Name) ++
            [.unregister c, .closeConn c],
           .ok ({ q with Req := none, Ext := none, ssc := none, srv := false }, some e)) := by
        simp [Query.Write, hs, hrun, hc]
      refine ⟨e, by rw [hp], by rw [hp]; simp, by rw [hp]; simp, ?_⟩
      intro r hmem
      rw [hp] at hmem
      simp at hmem

theorem ext_failure_asymmetry_witness :
    (process [⟨gs "x", gs "/", ⟨some (Err.mk 5), some (Err.mk 6)⟩⟩] []
        (mkReadQuery ⟨gs "/y"⟩ 4)).2 = .ok none ∧
    (∃ e : Err,
      (Query.Write [⟨gs "x", gs "/", ⟨some (Err.mk 5), some (Err.mk 6)⟩⟩] none
          (mkReadQuery ⟨gs "/y"⟩ 4) ⟨1⟩).2 =
        .ok ({ mkReadQuery ⟨gs "/y"⟩ 4 with
                Req := none, Ext := none, ssc := none, srv := false }, some e) ∧
      Event.unregister 4 ∈ (Query.Write [⟨gs "x", gs "/", ⟨some (Err.mk 5), some (Err.mk 6)⟩⟩]
          none (mkReadQuery ⟨gs "/y"⟩ 4) ⟨1⟩).1 ∧
      Event.closeConn 4 ∈ (Query.Write [⟨gs "x", gs "/", ⟨some (Err.mk 5), some (Err.mk 6)⟩⟩]
          none (mkReadQuery ⟨gs "/y"⟩ 4) ⟨1⟩).1 ∧
      (∀ r, Event.connWrite 4 r ∉ (Query.Write [⟨gs "x", gs "/", ⟨some (Err.mk 5), some (Err.mk 6)⟩⟩]
          none (mkReadQuery ⟨gs "/y"⟩ 4) ⟨1⟩).1)) := by
  have h := ext_failure_asymmetry [⟨gs "x", gs "/", ⟨some (Err.mk 5), some (Err.mk 6)⟩⟩] []
    (mkReadQuery ⟨gs "/y"⟩ 4) none ⟨1⟩ 4 [] rfl rfl rfl
  exact ⟨(h.1 ⟨⟨gs "x", gs "/", ⟨some (Err.mk 5), some (Err.mk 6)⟩⟩, by decide, by decide,
      by decide⟩).1,
    h.2 ⟨⟨gs "x", gs "/", ⟨some (Err.mk 5), some (Err.mk 6)⟩⟩, by decide, by decide, by decide⟩⟩

/-- C3 counterexample: the first Shutdown of a live server succeeds (here
the listener's Close returns nil and one live connection is closed), but a
second Shutdown panics — Go's `close` of the already-closed dispatch
channel — instead of returning the same result: Shutdown is not
idempotent. -/
theorem shutdown_not_idempotent_cex :
    (shutdown none { listen := true, qchClosed := false, conns := [5] }).2 =
      .ok ({ listen := false, qchClosed := true, conns := [] }, none) ∧
    (shutdown none { listen := false, qchClosed := true, conns := [] }).2 =
      .error .closeOfClosedChan :=
  ⟨rfl, rfl⟩

/-- C3 amended: the first Shutdown (dispatch channel still open) nulls the
listener, closes the dispatch channel, returns the listener's Close result,
and clears every live connection; afterwards the accept loop's next
iteration observes the nil listener and exits, registering no new
connection — but a second Shutdown panics on closing the already-closed
dispatch channel rather than repeating the first call's result. -/
theorem shutdown_amended (lres lres2 : Option Err) (s : SrvState)
    (h : s.qchClosed = false) :
    (shutdown lres s).2 =
      .ok ({ listen := false, qchClosed := true, conns := [] },
        if s.listen then lres else none) ∧
    (∀ s1 e1, (shutdown lres s).2 = .ok (s1, e1) →
      (shutdown lres2 s1).2 = .error .closeOfClosedChan ∧
      acceptLoopHead s1 = .exit) := by
  have h1 : (shutdown lres s).2 =
      .ok ({ listen := false, qchClosed := true, conns := [] },
        if s.listen then lres else none) := by
    simp [shutdown, h]
  refine ⟨h1, ?_⟩
  intro s1 e1 he
  rw [h1] at he
  simp only [Except.ok.injEq, Prod.mk.injEq] at he
  obtain ⟨hs1, he1⟩ := he
  subst hs1
  exact ⟨by simp [shutdown], by simp [acceptLoopHead]⟩

theorem shutdown_amended_witness :
    (shutdown (some (Err.mk 3)) { listen := true, qchClosed := false, conns := [8] }).2 =
      .ok ({ listen := false, qchClosed := true, conns := [] }, some (Err.mk 3)) ∧
    (shutdown none { listen := false, qchClosed := true, conns := [] }).2 =
      .error .closeOfClosedChan ∧
    acceptLoopHead { listen := false, qchClosed := true, conns := [] } = .exit := by
  have h := shutdown_amended (some (Err.mk 3)) none
    { listen := true, qchClosed := false, conns := [8] } rfl
  have h2 := h.2 { listen := false, qchClosed := true, conns := [] } (some (Err.mk 3)) h.1
  exact ⟨h.1, h2.1, h2.2⟩

/-- Every oldest-first step is in particular a plain step. -/
theorem connStepSeq_connStep {s t : ConnSys} (h : ConnStepSeq s t) : ConnStep s t := by
  cases h with
  | read ha => exact ConnStep.read s ha
  | cont i h1 h2 => exact ConnStep.cont s i h1 h2
  | hijack i h1 h2 => exact ConnStep.hijack s i h1 h2
  | write i h1 h2 h3 => exact ConnStep.write s i h1 h2

theorem connReachSeq_connReach {s : ConnSys} (h : ConnReachSeq s) : ConnReach s := by
  induction h with
  | init => exact ConnReach.init
  | step hr hstep ih => exact ConnReach.step ih (connStepSeq_connStep hstep)

/-- The reader-gate invariant holds in every reachable connection state. -/
theorem connReach_inv {s : ConnSys} (h : ConnReach s) : ConnInv s := by
  induction h with
  | init =>
    refine ⟨List.nodup_nil, ?_, ?_, ?_, List.nodup_nil, ?_⟩
    · intro i hi
      simp [ConnSys.init] at hi
    · intro _
      simp [ConnSys.init]
    · simp [ConnSys.init]
    · intro i hi
      simp [ConnSys.init] at hi
  | @step s0 t hr hstep ih =>
    obtain ⟨h1, h2, h3, h4, h5, h6⟩ := ih
    cases hstep with
    | read ha =>
      refine ⟨h1, fun i hi => Nat.lt_succ_of_lt (h2 i hi), ?_, ?_, h5,
        fun i hi => Nat.lt_succ_of_lt (h6 i hi)⟩
      · intro hact
        exact Bool.noConfusion hact
      · show s0.parsed + 1 ≤ s0.fwd.length + 1
        have := h3 ha
        omega
    | cont i hip hin =>
      refine ⟨List.nodup_cons.mpr ⟨hin, h1⟩, ?_, ?_, ?_, h5, h6⟩
      · intro j hj
        rcases List.mem_cons.mp hj with hj1 | hj2
        · rw [hj1]; exact hip
        · exact h2 j hj2
      · intro _
        show s0.parsed ≤ (i :: s0.fwd).length
        simp only [List.length_cons]
        omega
      · show s0.parsed ≤ (i :: s0.fwd).length + 1
        simp only [List.length_cons]
        omega
    | hijack i hip hin =>
      refine ⟨List.nodup_cons.mpr ⟨hin, h1⟩, ?_, ?_, ?_, h5, h6⟩
      · intro j hj
        rcases List.mem_cons.mp hj with hj1 | hj2
        · rw [hj1]; exact hip
        · exact h2 j hj2
      · intro hact
        have := h3 hact
        show s0.parsed ≤ (i :: s0.fwd).length
        simp only [List.length_cons]
        omega
      · show s0.parsed ≤ (i :: s0.fwd).length + 1
        simp only [List.length_cons]
        omega
    | write i hip hin =>
      refine ⟨h1, h2, h3, h4, ?_, ?_⟩
      · show (s0.written ++ [i]).Nodup
        rw [List.nodup_append]
        exact ⟨h5, List.nodup_singleton i,
          fun a ha hb => absurd (List.mem_singleton.mp hb ▸ ha) hin⟩
      · intro j hj
        rcases List.mem_append.mp hj with hj1 | hj2
        · exact h6 j hj1
        · rw [List.mem_singleton.mp hj2]
          exact hip

/-- Under the oldest-first write discipline the socket order is exactly the
arrival enumeration. -/
theorem connReachSeq_written {s : ConnSys} (h : ConnReachSeq s) :
    s.written = List.range s.written.length := by
  induction h with
  | init => rfl
  | @step s0 t hr hstep ih =>
    cases hstep with
    | read ha => exact ih
    | cont i h1 h2 => exact ih
    | hijack i h1 h2 => exact ih
    | write i h1 h2 h3 =>
      show s0.written ++ [i] = List.range (s0.written ++ [i]).length
      have hi : i = s0.written.length := by
        rcases Nat.lt_trichotomy i s0.written.length with hlt | heq | hgt
        · exfalso
          apply h2
          rw [ih]
          exact List.mem_range.mpr hlt
        · exact heq
        · exfalso
          have hmem := h3 s0.written.length hgt
          rw [ih] at hmem
          simp [List.length_range, List.mem_range] at hmem
      subst hi
      calc s0.written ++ [s0.written.length]
          = List.range s0.written.length ++ [s0.written.length] := by rw [← ih]
        _ = List.range (s0.written.length + 1) := (List.range_succ _).symm
        _ = List.range ((s0.written ++ [s0.written.length]).length) := by
            rw [List.length_append, List.length_singleton]

/-- Hijack never spawns a reader goroutine. -/
theorem hijack_no_spawn (q : Query) (c : Option Nat) :
    Event.spawnRead c ∉ (q.Hijack).1 := by
  by_cases hf : q.fwd = true
  · simp [Query.Hijack, hf]
  · by_cases hsv : q.srv = false
    · simp [Query.Hijack, hf, hsv]
    · cases hssc : q.ssc with
      | some c2 => simp [Query.Hijack, hf, hsv, hssc]
      | none => simp [Query.Hijack, hf, hsv, hssc]

/-- Write never spawns a reader goroutine. -/
theorem write_no_spawn (exts : List extcfg) (cw : Option Err) (q : Query) (resp : Response)
    (c : Option Nat) : Event.spawnRead c ∉ (Query.Write exts cw q resp).1 := by
  rcases hrun : chainRun (fun ec => ec.Ext.writeResult) q.origPath (copyExtRev exts)
    with ⟨invoked, res⟩
  by_cases hsv : q.srv = false
  · simp [Query.Write, hsv]
  · cases res with
    | some e =>
      cases hc : q.ssc with
      | some c2 => simp [Query.Write, hsv, hrun, hc]
      | none => simp [Query.Write, hsv, hrun, hc]
    | none =>
      cases hc : q.ssc with
      | none => simp [Query.Write, hsv, hrun, hc]
      | some c2 =>
        cases cw with
        | some e2 => simp [Query.Write, hsv, hrun, hc]
        | none => simp [Query.Write, hsv, hrun, hc]

/-- C1 amended: queries are delivered in request arrival order with the
reader gated on Continue — in every reachable state the parsed count
exceeds the forwarded count by at most one (not at all while a reader is
live), the one-shot reader enqueues exactly one query per successful read
and none on error, and only Continue spawns a reader (never Hijack or
Write).  The socket receives responses in Write-invocation order, so under
the oldest-first write discipline (each Write targets the oldest
outstanding unwritten query, as with a single Read consumer) the response
sequence equals the arrival enumeration; without that discipline an
out-of-arrival-order interleaving is reachable. -/
theorem pipelining_order (s : ConnSys) (h : ConnReachSeq s) :
    s.written = List.range s.written.length ∧
    (s.readerActive = true → s.parsed ≤ s.fwd.length) ∧
    s.parsed ≤ s.fwd.length + 1 ∧
    s.fwd.Nodup ∧ (∀ i ∈ s.fwd, i < s.parsed) ∧
    (∀ conn req, serverReadStep conn (.ok req) = ([], [mkReadQuery req conn])) ∧
    (∀ conn e, (serverReadStep conn (.error e)).2 = []) ∧
    (∀ (q : Query) (evs : List Event) (q1 : Query), q.Continue = (evs, .ok q1) →
      evs = [Event.spawnRead q.ssc]) ∧
    (∀ (q : Query) (c : Option Nat), Event.spawnRead c ∉ (q.Hijack).1) ∧
    (∀ (exts : List extcfg) (cw : Option Err) (q : Query) (resp : Response) (c : Option Nat),
      Event.spawnRead c ∉ (Query.Write exts cw q resp).1) := by
  obtain ⟨h1, h2, h3, h4, h5, h6⟩ := connReach_inv (connReachSeq_connReach h)
  refine ⟨connReachSeq_written h, h3, h4, h1, h2, fun conn req => rfl, fun conn e => rfl,
    ?_, hijack_no_spawn, write_no_spawn⟩
  intro q evs q1 hq
  cases hf : q.fwd with
  | true => simp [Query.Continue, hf] at hq
  | false =>
    cases hsv : q.srv with
    | false => simp [Query.Continue, hf, hsv] at hq
    | true =>
      simp [Query.Continue, hf, hsv] at hq
      exact hq.1.symm

theorem pipelining_order_witness :
    ConnReachSeq ⟨1, true, [0], [0]⟩ ∧ ([0] : List Nat) = List.range 1 := by
  have h1 : ConnStepSeq ConnSys.init ⟨1, false, [], []⟩ := ConnStepSeq.read ConnSys.init rfl
  have h2 : ConnStepSeq (⟨1, false, [], []⟩ : ConnSys) ⟨1, false, [], [0]⟩ :=
    ConnStepSeq.write ⟨1, false, [], []⟩ 0 (by decide) (by simp)
      (fun j hj => absurd hj (Nat.not_lt_zero j))
  have h3 : ConnStepSeq (⟨1, false, [], [0]⟩ : ConnSys) ⟨1, true, [0], [0]⟩ :=
    ConnStepSeq.cont ⟨1, false, [], [0]⟩ 0 (by decide) (by simp)
  have hreach : ConnReachSeq (⟨1, true, [0], [0]⟩ : ConnSys) :=
    ConnReachSeq.step (ConnReachSeq.step (ConnReachSeq.step ConnReachSeq.init h1) h2) h3
  exact ⟨hreach, (pipelining_order _ hreach).1⟩

/-- C1 counterexample: an interleaving the source permits — request 0 is
delivered and Continued, the re-spawned reader delivers request 1, and the
two handlers (e.g. two Launch consumers) invoke Write in the order 1 then
0 — reaches socket order [1, 0], not the arrival order [0, 1]: the reader
gate alone does not make the response sequence equal the request arrival
order. -/
theorem pipelining_order_cex :
    ConnReach { parsed := 2, readerActive := false, fwd := [0], written := [1, 0] } ∧
    [1, 0] ≠ List.range 2 := by
  have h1 : ConnStep ConnSys.init ⟨1, false, [], []⟩ := ConnStep.read ConnSys.init rfl
  have h2 : ConnStep (⟨1, false, [], []⟩ : ConnSys) ⟨1, true, [0], []⟩ :=
    ConnStep.cont ⟨1, false, [], []⟩ 0 (by decide) (by simp)
  have h3 : ConnStep (⟨1, true, [0], []⟩ : ConnSys) ⟨2, false, [0], []⟩ :=
    ConnStep.read ⟨1, true, [0], []⟩ rfl
  have h4 : ConnStep (⟨2, false, [0], []⟩ : ConnSys) ⟨2, false, [0], [1]⟩ :=
    ConnStep.write ⟨2, false, [0], []⟩ 1 (by decide) (by simp)
  have h5 : ConnStep (⟨2, false, [0], [1]⟩ : ConnSys) ⟨2, false, [0], [1, 0]⟩ :=
    ConnStep.write ⟨2, false, [0], [1]⟩ 0 (by decide) (by decide)
  exact ⟨ConnReach.step (ConnReach.step (ConnReach.step (ConnReach.step (ConnReach.step
    ConnReach.init h1) h2) h3) h4) h5, by decide⟩

end GoHTTP
